import Mathlib

/-!
Verification of the MCTS search core of the pyzero repository.

The data model and operations below are translated from
src/pyzero/node.py, src/pyzero/helpers.py, src/pyzero/network_output.py
and the self-play part of src/pyzero/cli.py. Python floats are modelled
as exact rationals; the infinite float sentinels used by the value
normalizer are modelled by an explicit extended-rational type. The
collaborator classes that the repository imports but does not ship under
src (MuZeroConfig, Network, ActionHistory) are modelled from the spec and
are marked as such on their declarations.
-/

namespace PyZero

/-- Extended rational values: the source stores Python floats, and the
value normalizer in helpers.py is initialized with the infinite
sentinels MAXIMUM_FLOAT_VALUE and its negation. Finite floats are
modelled as exact rationals. -/
inductive XRat where
  | negInf : XRat
  | fin (q : ℚ) : XRat
  | posInf : XRat
  deriving DecidableEq

/-- Strict comparison on extended rationals, mirroring Python float
comparison on the values that occur in the source (no NaN arises). -/
def XRat.blt : XRat → XRat → Bool
  | _, XRat.negInf => false
  | XRat.negInf, _ => true
  | XRat.fin a, XRat.fin b => decide (a < b)
  | XRat.fin _, XRat.posInf => true
  | XRat.posInf, _ => false

/-- The Python built-in max on two floats: the larger argument, the first
one on ties. -/
def XRat.xmax (a b : XRat) : XRat := if XRat.blt a b then b else a

/-- The Python built-in min on two floats: the smaller argument, the first
one on ties. -/
def XRat.xmin (a b : XRat) : XRat := if XRat.blt b a then b else a

/-- KnownBounds from helpers.py: a namedtuple holding a caller-supplied
value range. -/
structure KnownBounds where
  min : ℚ
  max : ℚ
  deriving DecidableEq

/-- MinMaxStats from helpers.py: holds the min-max values of the tree. -/
structure MinMaxStats where
  maximum : XRat
  minimum : XRat
  deriving DecidableEq

/-- MinMaxStats constructor from helpers.py: known bounds if supplied,
else the sentinels -MAXIMUM_FLOAT_VALUE for maximum and
MAXIMUM_FLOAT_VALUE for minimum. -/
def MinMaxStats.start (known_bounds : Option KnownBounds) : MinMaxStats :=
  ⟨match known_bounds with
    | some kb => XRat.fin kb.max
    | none => XRat.negInf,
   match known_bounds with
    | some kb => XRat.fin kb.min
    | none => XRat.posInf⟩

/-- MinMaxStats.update from helpers.py. -/
def MinMaxStats.update (s : MinMaxStats) (value : ℚ) : MinMaxStats :=
  ⟨s.maximum.xmax (XRat.fin value), s.minimum.xmin (XRat.fin value)⟩

/-- MinMaxStats.normalize from helpers.py: rescale by the current range
when maximum is strictly greater than minimum, otherwise return the raw
value. The inner match is total on the guard: bounds involving the
infinite sentinels never satisfy the guard in any state reachable from
the constructor, and the source would perform float infinity arithmetic
there; those dead branches are fixed to 0 here. -/
def MinMaxStats.normalize (s : MinMaxStats) (value : ℚ) : ℚ :=
  if s.minimum.blt s.maximum then
    match s.maximum, s.minimum with
    | XRat.fin M, XRat.fin m => (value - m) / (M - m)
    | _, _ => 0
  else value

/-- Node from node.py. The children dict maps actions to child nodes; it
is modelled as an association list in insertion order, which is how
Python dicts iterate. Actions are modelled by their integer index. -/
inductive Node where
  | mk (visit_count : ℕ) (to_play : ℤ) (prior : ℚ) (value_sum : ℚ)
       (children : List (ℕ × Node)) (hidden_state : Option (List ℚ)) (reward : ℚ)

def Node.visit_count : Node → ℕ
  | Node.mk v _ _ _ _ _ _ => v

def Node.to_play : Node → ℤ
  | Node.mk _ t _ _ _ _ _ => t

def Node.prior : Node → ℚ
  | Node.mk _ _ p _ _ _ _ => p

def Node.value_sum : Node → ℚ
  | Node.mk _ _ _ s _ _ _ => s

def Node.children : Node → List (ℕ × Node)
  | Node.mk _ _ _ _ c _ _ => c

def Node.hidden_state : Node → Option (List ℚ)
  | Node.mk _ _ _ _ _ h _ => h

def Node.reward : Node → ℚ
  | Node.mk _ _ _ _ _ _ r => r

/-- Node.__init__(prior) from node.py: zero visits, player -1, the given
prior, zero value sum, no children, no hidden state, zero reward. -/
def Node.start (prior : ℚ) : Node := Node.mk 0 (-1) prior 0 [] none 0

/-- Node.expanded() from node.py: the children mapping is non-empty. -/
def Node.expanded (n : Node) : Bool := decide (0 < n.children.length)

/-- Node.value() from node.py: the mean value, 0 when unvisited. -/
def Node.value (n : Node) : ℚ :=
  if n.visit_count = 0 then 0 else n.value_sum / (n.visit_count : ℚ)

/-- NetworkOutput from network_output.py. policy_logits is a Python dict
from Action to float; the source only ever looks up actions of the game
action space, so it is modelled as a total function on action indices. -/
structure NetworkOutput where
  value : ℚ
  reward : ℚ
  policy_logits : ℕ → ℚ
  hidden_state : List ℚ

/-- Modelled from the spec: the Network evaluator (network.py is not
under src). Spec section 6 gives the shape
recurrent_inference(hidden_state, action) returning a NetworkOutput and
training_steps() returning a monotone counter; the hidden state argument
is the cached hidden state of a tree node. -/
structure Network where
  recurrent_inference : Option (List ℚ) → ℕ → NetworkOutput
  training_steps : ℕ

/-- Modelled from the spec: ActionHistory (action_history.py is not
under src). It carries the actions taken so far, the fixed action space
size, and the player-to-move rule of the game as a function of the
action sequence (spec section 6 lists to_play and action_space among the
collaborator calls used by the engine). -/
structure ActionHistory where
  history : List ℕ
  action_space_size : ℕ
  toPlayOf : List ℕ → ℤ

/-- ActionHistory.clone: a copy of the history. -/
def ActionHistory.clone (h : ActionHistory) : ActionHistory := h

/-- ActionHistory.add_action: append one action. -/
def ActionHistory.add_action (h : ActionHistory) (a : ℕ) : ActionHistory :=
  ⟨h.history ++ [a], h.action_space_size, h.toPlayOf⟩

/-- ActionHistory.last_action: the most recent action. -/
def ActionHistory.last_action (h : ActionHistory) : ℕ := h.history.getLastD 0

/-- ActionHistory.to_play: the player to move after the recorded actions. -/
def ActionHistory.to_play (h : ActionHistory) : ℤ := h.toPlayOf h.history

/-- ActionHistory.action_space: all actions of the fixed action space. -/
def ActionHistory.action_space (h : ActionHistory) : List ℕ :=
  List.range h.action_space_size

/-- Modelled from the spec: MuZeroConfig (muzero_config.py is not under
src). Spec section 6 lists the numeric constants consumed by the search:
num_simulations, pb_c_base, pb_c_init, discount, root_dirichlet_alpha,
root_exploration_fraction, the temperature function of move number and
training step, and the optional known value bounds. -/
structure MuZeroConfig where
  action_space_size : ℕ
  num_simulations : ℕ
  discount : ℚ
  pb_c_base : ℚ
  pb_c_init : ℚ
  root_dirichlet_alpha : ℚ
  root_exploration_fraction : ℚ
  known_bounds : Option KnownBounds
  visit_softmax_temperature_fn : ℕ → ℕ → ℚ

/-- The transcendental float functions math.log, math.sqrt and math.exp
used by cli.py, abstracted as rational-valued functions: the float
library routines are opaque approximations, and every theorem below
holds for any choice of them. -/
structure FloatMath where
  log : ℚ → ℚ
  sqrt : ℚ → ℚ
  exp : ℚ → ℚ

/-- ucb_score from cli.py. -/
def ucb_score (fm : FloatMath) (config : MuZeroConfig) (parent child : Node)
    (min_max_stats : MinMaxStats) : ℚ :=
  let pb_c0 := fm.log (((parent.visit_count : ℚ) + config.pb_c_base + 1) / config.pb_c_base)
      + config.pb_c_init
  let pb_c := pb_c0 * (fm.sqrt (parent.visit_count : ℚ) / ((child.visit_count : ℚ) + 1))
  let prior_score := pb_c * child.prior
  let value_score := if 0 < child.visit_count then
      child.reward + config.discount * min_max_stats.normalize child.value
    else 0
  prior_score + value_score

/-- One comparison step of the Python max() over (score, action, child)
tuples in select_child: tuple comparison is lexicographic, the child
objects are never compared because dict keys are distinct, and max keeps
the earlier element on full ties. -/
def select_step (b x : ℚ × ℕ × Node) : ℚ × ℕ × Node :=
  if b.1 < x.1 ∨ (b.1 = x.1 ∧ b.2.1 < x.2.1) then x else b

/-- select_child from cli.py: the (action, child) entry maximizing the
ucb score. On an empty children mapping the Python max() raises
ValueError; that case returns a junk pair here and is excluded by the
expanded-node contract. -/
def select_child (fm : FloatMath) (config : MuZeroConfig) (node : Node)
    (min_max_stats : MinMaxStats) : ℕ × Node :=
  match node.children.map
      (fun p => (ucb_score fm config node p.2 min_max_stats, p.1, p.2)) with
  | [] => (0, Node.start 0)
  | t :: ts => (ts.foldl select_step t).2

/-- Assignment d[k] = v on a Python dict modelled as an association
list: an existing key keeps its position and receives the new value, a
new key is appended at the end. -/
def upsert {α : Type} (l : List (ℕ × α)) (k : ℕ) (v : α) : List (ℕ × α) :=
  match l with
  | [] => [(k, v)]
  | p :: ps => if p.1 = k then (k, v) :: ps else p :: upsert ps k v

/-- The policy dict comprehension of expand_node in cli.py: for each
action in order, the exponential of its policy logit, keyed by action. -/
def policy_of (fm : FloatMath) (network_output : NetworkOutput)
    (actions : List ℕ) : List (ℕ × ℚ) :=
  actions.foldl (fun m a => upsert m a (fm.exp (network_output.policy_logits a))) []

/-- expand_node from cli.py: set to_play, hidden_state and reward from
the evaluator output, then assign one fresh child per policy entry with
the normalized prior. -/
def expand_node (fm : FloatMath) (node : Node) (to_play : ℤ) (actions : List ℕ)
    (network_output : NetworkOutput) : Node :=
  let policy := policy_of fm network_output actions
  let policy_sum := (policy.map (fun p => p.2)).sum
  let newChildren := policy.foldl
      (fun m p => upsert m p.1 (Node.start (p.2 / policy_sum))) node.children
  Node.mk node.visit_count to_play node.prior node.value_sum newChildren
    (some network_output.hidden_state) network_output.reward

/-- The body of the backpropagate loop in cli.py for one node of the
search path: add the view-adjusted value to value_sum, count one visit,
feed the new mean into the normalizer, and recompute the value carried
toward the root as reward plus discounted value. -/
def backprop_step (to_play : ℤ) (discount : ℚ) (node : Node) (value : ℚ)
    (min_max_stats : MinMaxStats) : Node × ℚ × MinMaxStats :=
  let n := Node.mk (node.visit_count + 1) node.to_play node.prior
      (node.value_sum + (if node.to_play = to_play then value else -value))
      node.children node.hidden_state node.reward
  (n, node.reward + discount * value, min_max_stats.update n.value)

/-- The fold step of backpropagate: process one node, prepending the
updated node so that the output list keeps root-to-leaf order. -/
def backprop_go (to_play : ℤ) (discount : ℚ)
    (acc : List Node × ℚ × MinMaxStats) (node : Node) : List Node × ℚ × MinMaxStats :=
  let s := backprop_step to_play discount node acc.2.1 acc.2.2
  (s.1 :: acc.1, s.2.1, s.2.2)

/-- backpropagate from cli.py: iterate the loop body over
reversed(search_path), that is from the leaf toward the root, threading
the carried value and the normalizer; the updated path is returned in
root-to-leaf order together with the final normalizer. -/
def backpropagate (search_path : List Node) (value : ℚ) (to_play : ℤ)
    (discount : ℚ) (min_max_stats : MinMaxStats) : List Node × MinMaxStats :=
  let r := search_path.reverse.foldl (backprop_go to_play discount)
      ([], value, min_max_stats)
  (r.1, r.2.2)

/-- Replace the prior of a node, modelling the assignment
child.prior = ... in add_exploration_noise. -/
def setPrior (n : Node) (p : ℚ) : Node :=
  Node.mk n.visit_count n.to_play p n.value_sum n.children n.hidden_state n.reward

/-- The zip loop of add_exploration_noise: blend each child prior with
its noise entry; zip truncates at the shorter list as in Python. -/
def blendChildren (frac : ℚ) : List (ℕ × Node) → List ℚ → List (ℕ × Node)
  | cs, [] => cs
  | [], _ :: _ => []
  | c :: cs, n :: ns =>
      (c.1, setPrior c.2 (c.2.prior * (1 - frac) + n * frac)) :: blendChildren frac cs ns

/-- add_exploration_noise from cli.py. The Dirichlet sample drawn from
numpy.random in the source is an external random input, passed in here
as the noise list, one entry per root action as drawn in the source. -/
def add_exploration_noise (config : MuZeroConfig) (noise : List ℚ) (node : Node) : Node :=
  Node.mk node.visit_count node.to_play node.prior node.value_sum
    (blendChildren config.root_exploration_fraction node.children noise)
    node.hidden_state node.reward

theorem select_step_cases (b x : ℚ × ℕ × Node) :
    select_step b x = b ∨ select_step b x = x := by
  unfold select_step
  split
  · right; rfl
  · left; rfl

theorem foldl_select_step_mem (l : List (ℚ × ℕ × Node)) (b : ℚ × ℕ × Node) :
    l.foldl select_step b = b ∨ l.foldl select_step b ∈ l := by
  induction l generalizing b with
  | nil => left; rfl
  | cons x xs ih =>
    rcases ih (select_step b x) with h | h
    · rw [List.foldl_cons, h]
      rcases select_step_cases b x with h2 | h2
      · left; exact h2
      · right; rw [h2]; exact List.mem_cons_self x xs
    · right
      rw [List.foldl_cons]
      exact List.mem_cons_of_mem x h

/-- The pair returned by select_child is an entry of the children
mapping whenever that mapping is non-empty. -/
theorem select_child_mem (fm : FloatMath) (config : MuZeroConfig) (node : Node)
    (min_max_stats : MinMaxStats) (h : node.children ≠ []) :
    select_child fm config node min_max_stats ∈ node.children := by
  unfold select_child
  cases hm : node.children.map
      (fun p => (ucb_score fm config node p.2 min_max_stats, p.1, p.2)) with
  | nil =>
    exact absurd (List.map_eq_nil_iff.mp hm) h
  | cons t ts =>
    have hmem : (ts.foldl select_step t) ∈ t :: ts := by
      rcases foldl_select_step_mem ts t with h2 | h2
      · rw [h2]; exact List.mem_cons_self t ts
      · exact List.mem_cons_of_mem t h2
    rw [← hm] at hmem
    rcases List.mem_map.mp hmem with ⟨p, hp, hfp⟩
    have : (ts.foldl select_step t).2 = p := by
      rw [← hfp]
    simpa [this] using hp

theorem sizeOf_lt_of_mem_children {a : ℕ} {c : Node} {node : Node}
    (h : (a, c) ∈ node.children) : sizeOf c < sizeOf node := by
  cases node with
  | mk v t p s cs hs r =>
    simp only [Node.children] at h
    have h1 := List.sizeOf_lt_of_mem h
    have h2 : sizeOf c < sizeOf (a, c) := by
      simp
    simp only [Node.mk.sizeOf_spec]
    omega

/-- One simulation of run_mcts from cli.py, written as recursion on the
tree: the while loop descends with select_child, cloning and extending
the action history and keeping the search path; the leaf is expanded
with the recurrent inference of the parent hidden state and the last
action; the return path then performs the backpropagate loop from the
leaf to the root, threading the value recurrence and the normalizer,
exactly as the iteration over the reversed search path does in the
source. ph and la are the hidden state of the parent node and the action
that led to this node. The result is the updated subtree, the value
carried to the parent after the update of this node, the perspective
player history.to_play() computed at the leaf, and the normalizer. -/
def simulate (fm : FloatMath) (config : MuZeroConfig) (network : Network)
    (hist : ActionHistory) (ph : Option (List ℚ)) (la : ℕ)
    (min_max_stats : MinMaxStats) (node : Node) : Node × ℚ × ℤ × MinMaxStats :=
  if h : node.expanded then
    let a := (select_child fm config node min_max_stats).1
    let c := (select_child fm config node min_max_stats).2
    let r := simulate fm config network (hist.add_action a) node.hidden_state a
        min_max_stats c
    let node1 := Node.mk node.visit_count node.to_play node.prior node.value_sum
        (node.children.map (fun p => if p.1 = a then (p.1, r.1) else p))
        node.hidden_state node.reward
    let s := backprop_step r.2.2.1 config.discount node1 r.2.1 r.2.2.2
    (s.1, s.2.1, r.2.2.1, s.2.2)
  else
    let network_output := network.recurrent_inference ph la
    let tp := hist.to_play
    let node1 := expand_node fm node tp hist.action_space network_output
    let s := backprop_step tp config.discount node1 network_output.value min_max_stats
    (s.1, s.2.1, tp, s.2.2)
termination_by sizeOf node
decreasing_by
  have hne : node.children ≠ [] := by
    unfold Node.expanded at h
    intro hnil
    rw [hnil] at h
    simp at h
  have hmem := select_child_mem fm config node min_max_stats hne
  exact sizeOf_lt_of_mem_children (by simpa using hmem)

/-- The body of the simulation loop of run_mcts in cli.py: one
simulation from the current root with a clone of the caller action
history, keeping the updated tree and the updated normalizer. -/
def mcts_step (fm : FloatMath) (config : MuZeroConfig) (network : Network)
    (action_history : ActionHistory) (acc : Node × MinMaxStats) :
    Node × MinMaxStats :=
  let r := simulate fm config network action_history.clone none
      action_history.clone.last_action acc.2 acc.1
  (r.1, r.2.2.2)

/-- run_mcts from cli.py: a fresh MinMaxStats from the known bounds,
then num_simulations simulations threading the tree and the normalizer.
Each simulation starts at the root from a clone of the caller action
history. The contract requires the root to be already expanded: on an
unexpanded root the source raises IndexError when it takes
search_path[-2], so the top-level parent hidden state and last action
fed to simulate are junk values that are never consumed. -/
def run_mcts (fm : FloatMath) (config : MuZeroConfig) (root : Node)
    (action_history : ActionHistory) (network : Network) : Node × MinMaxStats :=
  (List.range config.num_simulations).foldl
    (fun acc _ => mcts_step fm config network action_history acc)
    (root, MinMaxStats.start config.known_bounds)

/-- softmax_sample from cli.py: the source is a stub that ignores its
inputs and returns (0, 0). -/
def softmax_sample (distribution : List (ℕ × ℕ)) (temperature : ℚ) : ℕ × ℕ :=
  (0, 0)

/-- select_action from cli.py: collect the (visit count, action) pairs
of the root children, ask the config for the temperature at this move
number and training step, and take the action component of
softmax_sample. -/
def select_action (config : MuZeroConfig) (num_moves : ℕ) (node : Node)
    (network : Network) : ℕ :=
  let visit_counts := node.children.map (fun p => (p.2.visit_count, p.1))
  let t := config.visit_softmax_temperature_fn num_moves network.training_steps
  (softmax_sample visit_counts t).2

/-! Concrete instances used by counterexamples and witnesses. -/

/-- A concrete float math model: log and sqrt constantly 0, exp
constantly 1 (exp stays positive, as the real exponential is). -/
def fmZero : FloatMath := ⟨fun _ => 0, fun _ => 0, fun _ => 1⟩

/-- A small concrete configuration: two actions, one simulation,
discount 1, pb_c constants 1, exploration fraction 1/4, no known bounds,
temperature constantly 0. -/
def cfgTest : MuZeroConfig := ⟨2, 1, 1, 1, 1, 1/4, 1/4, none, fun _ _ => 0⟩

/-- A concrete evaluator whose recurrent inference is constantly the
zero output. -/
def netTest : Network := ⟨fun _ _ => ⟨0, 0, fun _ => 0, []⟩, 0⟩

/-- A concrete action history: no moves yet, two actions, player 0. -/
def histTest : ActionHistory := ⟨[], 2, fun _ => 0⟩

/-- A concrete expanded root with two unvisited children. -/
def rootTest : Node :=
  Node.mk 0 0 1 0 [(0, Node.start (1/2)), (1, Node.start (1/2))] (some []) 0

/-- A node that already carries a child under action 2 before any
expansion with the legal actions of the current position. -/
def nodePre : Node := Node.mk 0 0 1 0 [(2, Node.start (1/2))] none 0

/-- A root whose child under action 1 has strictly the most visits. -/
def rootC6 : Node :=
  Node.mk 6 0 1 0
    [(0, Node.mk 1 0 (1/2) 0 [] none 0), (1, Node.mk 5 0 (1/2) 0 [] none 0)]
    (some []) 0

/-! Order facts about the extended rational comparison. -/

theorem XRat.blt_irrefl (a : XRat) : XRat.blt a a = false := by
  cases a <;> simp [XRat.blt]

theorem XRat.blt_asymm {a b : XRat} (h : XRat.blt a b = true) :
    XRat.blt b a = false := by
  cases a <;> cases b <;> simp_all [XRat.blt] <;> linarith

/-! Claim C6. The source stub makes action selection constant. -/

/-- C6: the claim says that with temperature 0 select_action returns the
action with the strictly highest visit count among the root children.
On the code this fails: softmax_sample is a stub returning (0, 0), so
select_action returns action 0 even though the child under action 1 has
5 visits against 1 for the child under action 0, at temperature 0. -/
theorem select_action_stub_ignores_visits :
    rootC6.children.map (fun p => (p.1, p.2.visit_count)) = [(0, 1), (1, 5)] ∧
    cfgTest.visit_softmax_temperature_fn 0 netTest.training_steps = 0 ∧
    select_action cfgTest 0 rootC6 netTest = 0 := by
  refine ⟨by decide, by decide, by decide⟩

/-! Claim C7. Normalizing with a malformed bound pair. -/

/-- C7 counterexample: with maximum 0 strictly below minimum 1, the
claim says normalize must fail fast rather than return a numeric score;
the code returns the input 5 unchanged through the else branch of the
range guard. -/
theorem normalize_malformed_counterexample :
    MinMaxStats.normalize ⟨XRat.fin 0, XRat.fin 1⟩ 5 = 5 := by decide

/-- C7 amended: for every normalizer whose maximum is strictly below its
minimum and every input value, normalize returns the input value
unchanged; no error path exists, the malformed pair falls through the
same identity branch as the zero-width range. -/
theorem normalize_malformed_returns_input (s : MinMaxStats) (v : ℚ)
    (h : s.maximum.blt s.minimum = true) : s.normalize v = v := by
  unfold MinMaxStats.normalize
  rw [XRat.blt_asymm h]
  simp

/-- C7 witness: the amended theorem at the concrete malformed state with
maximum 0 and minimum 1 and input 7. -/
theorem normalize_malformed_returns_input_witness :
    MinMaxStats.normalize ⟨XRat.fin 0, XRat.fin 1⟩ 7 = 7 :=
  normalize_malformed_returns_input ⟨XRat.fin 0, XRat.fin 1⟩ 7 (by decide)

/-! Claim C8. Characterization of normalize. -/

/-- C8 counterexample: the claim says normalize returns its input
unchanged if and only if minimum equals maximum, and that the result is
non-decreasing as a function of the observed range. Both fail: with
minimum 0 and maximum 1 normalize is the identity although the bounds
differ, and widening the maximum from 1 to 2 strictly decreases the
score of input 1. -/
theorem normalize_identity_iff_counterexample :
    (MinMaxStats.normalize ⟨XRat.fin 1, XRat.fin 0⟩ (1/2) = 1/2 ∧
      XRat.fin (1 : ℚ) ≠ XRat.fin (0 : ℚ)) ∧
    MinMaxStats.normalize ⟨XRat.fin 2, XRat.fin 0⟩ 1
      < MinMaxStats.normalize ⟨XRat.fin 1, XRat.fin 0⟩ 1 := by
  refine ⟨⟨?_, by decide⟩, ?_⟩
  · norm_num [MinMaxStats.normalize, XRat.blt]
  · norm_num [MinMaxStats.normalize, XRat.blt]

/-- C8 amended: normalize returns its input unchanged whenever minimum
equals maximum; when the maximum is a finite bound strictly above the
finite minimum it returns the affine rescaling, which lies in the unit
interval for inputs inside the range; and for a fixed normalizer state
normalize is non-decreasing as a function of the input value. -/
theorem normalize_characterization (s : MinMaxStats) (M m v w : ℚ) :
    (s.minimum = s.maximum → s.normalize v = v) ∧
    (s.maximum = XRat.fin M → s.minimum = XRat.fin m → m < M →
      s.normalize v = (v - m) / (M - m) ∧
      (m ≤ v → v ≤ M → 0 ≤ s.normalize v ∧ s.normalize v ≤ 1)) ∧
    (v ≤ w → s.normalize v ≤ s.normalize w) := by
  obtain ⟨X, Y⟩ := s
  refine ⟨?_, ?_, ?_⟩
  · intro h
    simp only at h
    unfold MinMaxStats.normalize
    simp only [h, XRat.blt_irrefl]
    simp
  · intro hM hm hlt
    simp only at hM hm
    subst hM; subst hm
    have hg : MinMaxStats.normalize ⟨XRat.fin M, XRat.fin m⟩ v = (v - m) / (M - m) := by
      simp [MinMaxStats.normalize, XRat.blt, hlt]
    refine ⟨hg, fun h1 h2 => ?_⟩
    rw [hg]
    exact ⟨div_nonneg (by linarith) (by linarith),
      by rw [div_le_one (by linarith)]; linarith⟩
  · intro hvw
    unfold MinMaxStats.normalize
    simp only
    by_cases hg : Y.blt X = true
    · rw [hg]
      simp only [if_true]
      cases X with
      | negInf => simp [XRat.blt] at hg
      | posInf =>
        cases Y <;> simp
      | fin M2 =>
        cases Y with
        | negInf => simp
        | posInf => simp [XRat.blt] at hg
        | fin m2 =>
          simp only
          have hlt2 : m2 < M2 := by simpa [XRat.blt] using hg
          rw [div_le_div_iff_of_pos_right (by linarith)]
          linarith
    · rw [Bool.not_eq_true] at hg
      rw [hg]
      simpa using hvw

/-- C8 witness: the amended characterization at the state with maximum
1 and minimum 0, inputs 1/4 and 1/2. -/
theorem normalize_characterization_witness :
    ((XRat.fin (0 : ℚ) = XRat.fin (1 : ℚ) →
        MinMaxStats.normalize ⟨XRat.fin 1, XRat.fin 0⟩ (1/4) = 1/4) ∧
     (XRat.fin (1 : ℚ) = XRat.fin (1 : ℚ) → XRat.fin (0 : ℚ) = XRat.fin (0 : ℚ) →
        (0 : ℚ) < 1 →
        MinMaxStats.normalize ⟨XRat.fin 1, XRat.fin 0⟩ (1/4) = (1/4 - 0) / (1 - 0) ∧
        ((0 : ℚ) ≤ 1/4 → (1/4 : ℚ) ≤ 1 →
          0 ≤ MinMaxStats.normalize ⟨XRat.fin 1, XRat.fin 0⟩ (1/4) ∧
          MinMaxStats.normalize ⟨XRat.fin 1, XRat.fin 0⟩ (1/4) ≤ 1)) ∧
     ((1/4 : ℚ) ≤ 1/2 →
        MinMaxStats.normalize ⟨XRat.fin 1, XRat.fin 0⟩ (1/4)
          ≤ MinMaxStats.normalize ⟨XRat.fin 1, XRat.fin 0⟩ (1/2))) :=
  normalize_characterization ⟨XRat.fin 1, XRat.fin 0⟩ 1 0 (1/4) (1/2)

/-! Claim C10. The sentinel-initialized normalizer after constant
updates. -/

theorem minmax_update_const_fixed (v : ℚ) (rest : List ℚ)
    (hall : ∀ x ∈ rest, x = v) :
    rest.foldl MinMaxStats.update ⟨XRat.fin v, XRat.fin v⟩
      = ⟨XRat.fin v, XRat.fin v⟩ := by
  induction rest with
  | nil => rfl
  | cons x xs ih =>
    have hx : x = v := hall x (List.mem_cons_self x xs)
    have hstep : MinMaxStats.update ⟨XRat.fin v, XRat.fin v⟩ x
        = ⟨XRat.fin v, XRat.fin v⟩ := by
      subst hx
      simp [MinMaxStats.update, XRat.xmax, XRat.xmin, XRat.blt_irrefl]
    rw [List.foldl_cons, hstep]
    exact ih (fun y hy => hall y (List.mem_cons_of_mem x hy))

theorem minmax_const_state (v : ℚ) (vs : List ℚ) (hne : vs ≠ [])
    (hall : ∀ x ∈ vs, x = v) :
    vs.foldl MinMaxStats.update (MinMaxStats.start none)
      = ⟨XRat.fin v, XRat.fin v⟩ := by
  cases vs with
  | nil => exact absurd rfl hne
  | cons x xs =>
    have hx : x = v := hall x (List.mem_cons_self x xs)
    have hstep : MinMaxStats.update (MinMaxStats.start none) x
        = ⟨XRat.fin v, XRat.fin v⟩ := by
      subst hx
      simp [MinMaxStats.update, MinMaxStats.start, XRat.xmax, XRat.xmin, XRat.blt]
    rw [List.foldl_cons, hstep]
    exact minmax_update_const_fixed v xs (fun y hy => hall y (List.mem_cons_of_mem x hy))

theorem normalize_point_id (v w : ℚ) :
    MinMaxStats.normalize ⟨XRat.fin v, XRat.fin v⟩ w = w := by
  simp [MinMaxStats.normalize, XRat.blt_irrefl]

/-- C10: a normalizer created without known bounds holds the infinite
sentinels; after any positive number of updates that all carry the same
value v, its minimum and maximum both equal v and normalize returns
every input unchanged; and whenever any update sequence produces a
normalizer that rescales some input, the sequence observed two distinct
values. -/
theorem minmax_constant_updates_identity (v : ℚ) (vs : List ℚ)
    (hne : vs ≠ []) (hall : ∀ x ∈ vs, x = v) :
    ((vs.foldl MinMaxStats.update (MinMaxStats.start none)).minimum = XRat.fin v ∧
     (vs.foldl MinMaxStats.update (MinMaxStats.start none)).maximum = XRat.fin v ∧
     ∀ w, (vs.foldl MinMaxStats.update (MinMaxStats.start none)).normalize w = w) ∧
    ∀ (us : List ℚ) (w : ℚ),
      (us.foldl MinMaxStats.update (MinMaxStats.start none)).normalize w ≠ w →
      ∃ a ∈ us, ∃ b ∈ us, a ≠ b := by
  constructor
  · rw [minmax_const_state v vs hne hall]
    exact ⟨rfl, rfl, fun w => normalize_point_id v w⟩
  · intro us w hnw
    by_contra hc
    push_neg at hc
    cases us with
    | nil =>
      apply hnw
      simp only [List.foldl_nil]
      simp [MinMaxStats.normalize, MinMaxStats.start, XRat.blt]
    | cons u urest =>
      apply hnw
      have hall2 : ∀ x ∈ u :: urest, x = u :=
        fun x hx => hc x hx u (List.mem_cons_self u urest)
      rw [minmax_const_state u (u :: urest) (List.cons_ne_nil u urest) hall2]
      exact normalize_point_id u w

/-- C10 witness: two updates with the value 3 from the sentinel state. -/
theorem minmax_constant_updates_identity_witness :
    ((([3, 3] : List ℚ).foldl MinMaxStats.update (MinMaxStats.start none)).minimum
        = XRat.fin 3 ∧
     (([3, 3] : List ℚ).foldl MinMaxStats.update (MinMaxStats.start none)).maximum
        = XRat.fin 3 ∧
     ∀ w, (([3, 3] : List ℚ).foldl MinMaxStats.update (MinMaxStats.start none)).normalize w = w) ∧
    ∀ (us : List ℚ) (w : ℚ),
      (us.foldl MinMaxStats.update (MinMaxStats.start none)).normalize w ≠ w →
      ∃ a ∈ us, ∃ b ∈ us, a ≠ b :=
  minmax_constant_updates_identity 3 [3, 3] (by decide) (by decide)

/-! Claim C2. The backpropagation recurrence. -/

theorem backprop_go_acc (tp : ℤ) (d : ℚ) (l : List Node) (acc : List Node)
    (v : ℚ) (mm : MinMaxStats) :
    l.foldl (backprop_go tp d) (acc, v, mm)
      = ((l.foldl (backprop_go tp d) ([], v, mm)).1 ++ acc,
         (l.foldl (backprop_go tp d) ([], v, mm)).2) := by
  induction l generalizing acc v mm with
  | nil => simp
  | cons x xs ih =>
    simp only [List.foldl_cons, backprop_go]
    rw [ih ((backprop_step tp d x v mm).1 :: acc),
        ih [(backprop_step tp d x v mm).1]]
    simp

/-- C2: backpropagate walks the search path from the leaf to the root.
Appending a leaf to a path makes the leaf be processed first: the result
is the processing of the shorter path under the carried value
leaf.reward + discount * value and the normalizer updated with the new
leaf mean, with the updated leaf appended; and one processing step adds
the view-adjusted value (the raw value when the node player-to-move
equals the perspective player, its negation otherwise) to value_sum,
increments visit_count by one, carries reward + discount * value toward
the root, and feeds the new mean value into the normalizer update. -/
theorem backpropagate_leaf_to_root_recurrence (path : List Node) (leaf : Node)
    (value : ℚ) (to_play : ℤ) (discount : ℚ) (mm : MinMaxStats) :
    backpropagate (path ++ [leaf]) value to_play discount mm
      = ((backpropagate path (leaf.reward + discount * value) to_play discount
            ((backprop_step to_play discount leaf value mm).2.2)).1
          ++ [(backprop_step to_play discount leaf value mm).1],
         (backpropagate path (leaf.reward + discount * value) to_play discount
            ((backprop_step to_play discount leaf value mm).2.2)).2) ∧
    (backprop_step to_play discount leaf value mm).1.value_sum
        = leaf.value_sum + (if leaf.to_play = to_play then value else -value) ∧
    (backprop_step to_play discount leaf value mm).1.visit_count
        = leaf.visit_count + 1 ∧
    (backprop_step to_play discount leaf value mm).2.1
        = leaf.reward + discount * value ∧
    (backprop_step to_play discount leaf value mm).2.2
        = mm.update ((backprop_step to_play discount leaf value mm).1.value) := by
  refine ⟨?_, rfl, rfl, rfl, rfl⟩
  unfold backpropagate
  rw [List.reverse_append]
  simp only [List.reverse_singleton, List.singleton_append, List.foldl_cons,
    backprop_go]
  rw [backprop_go_acc to_play discount path.reverse
      [(backprop_step to_play discount leaf value mm).1]]
  rfl

/-! Claim C9. Frame conditions of backpropagate and expand_node. -/

theorem backprop_fold_map {α : Type} (F : Node → α)
    (hF : ∀ (tp : ℤ) (d : ℚ) (n : Node) (v : ℚ) (mm : MinMaxStats),
      F ((backprop_step tp d n v mm).1) = F n)
    (tp : ℤ) (d : ℚ) (l : List Node) (acc : List Node) (v : ℚ) (mm : MinMaxStats) :
    (l.foldl (backprop_go tp d) (acc, v, mm)).1.map F
      = l.reverse.map F ++ acc.map F := by
  induction l generalizing acc v mm with
  | nil => simp
  | cons x xs ih =>
    simp only [List.foldl_cons, backprop_go, List.reverse_cons]
    rw [ih]
    simp [hF]

theorem backpropagate_map {α : Type} (F : Node → α)
    (hF : ∀ (tp : ℤ) (d : ℚ) (n : Node) (v : ℚ) (mm : MinMaxStats),
      F ((backprop_step tp d n v mm).1) = F n)
    (path : List Node) (value : ℚ) (tp : ℤ) (d : ℚ) (mm : MinMaxStats) :
    (backpropagate path value tp d mm).1.map F = path.map F := by
  unfold backpropagate
  simp only
  rw [backprop_fold_map F hF]
  simp

/-- C9: backpropagate changes only value_sum and visit_count of the
nodes on the search path (and the normalizer): the prior, reward,
children mapping, hidden state and player-to-move of every node of the
path are unchanged; and expand_node changes only to_play, hidden_state,
reward and the children mapping: the visit_count, value_sum and prior of
the expanded node are unchanged. -/
theorem backpropagate_expand_frame (path : List Node) (value : ℚ)
    (to_play : ℤ) (discount : ℚ) (mm : MinMaxStats) (fm : FloatMath)
    (node : Node) (tp : ℤ) (actions : List ℕ) (out : NetworkOutput) :
    ((backpropagate path value to_play discount mm).1.map Node.prior
        = path.map Node.prior ∧
     (backpropagate path value to_play discount mm).1.map Node.reward
        = path.map Node.reward ∧
     (backpropagate path value to_play discount mm).1.map Node.children
        = path.map Node.children ∧
     (backpropagate path value to_play discount mm).1.map Node.hidden_state
        = path.map Node.hidden_state ∧
     (backpropagate path value to_play discount mm).1.map Node.to_play
        = path.map Node.to_play) ∧
    ((expand_node fm node tp actions out).visit_count = node.visit_count ∧
     (expand_node fm node tp actions out).value_sum = node.value_sum ∧
     (expand_node fm node tp actions out).prior = node.prior) := by
  refine ⟨⟨?_, ?_, ?_, ?_, ?_⟩, rfl, rfl, rfl⟩
  · exact backpropagate_map Node.prior (fun _ _ _ _ _ => rfl) path value to_play discount mm
  · exact backpropagate_map Node.reward (fun _ _ _ _ _ => rfl) path value to_play discount mm
  · exact backpropagate_map Node.children (fun _ _ _ _ _ => rfl) path value to_play discount mm
  · exact backpropagate_map Node.hidden_state (fun _ _ _ _ _ => rfl) path value to_play discount mm
  · exact backpropagate_map Node.to_play (fun _ _ _ _ _ => rfl) path value to_play discount mm

/-! Claim C3. Selection maximizes the UCB score. -/

theorem select_step_le_left (b x : ℚ × ℕ × Node) : b.1 ≤ (select_step b x).1 := by
  unfold select_step
  split
  · rename_i hc
    rcases hc with h | h
    · exact le_of_lt h
    · exact le_of_eq h.1
  · exact le_refl _

theorem select_step_le_right (b x : ℚ × ℕ × Node) : x.1 ≤ (select_step b x).1 := by
  unfold select_step
  split
  · exact le_refl _
  · rename_i hc
    push_neg at hc
    exact hc.1

theorem foldl_select_step_fst_le (l : List (ℚ × ℕ × Node)) (b : ℚ × ℕ × Node) :
    b.1 ≤ (l.foldl select_step b).1 ∧ ∀ x ∈ l, x.1 ≤ (l.foldl select_step b).1 := by
  induction l generalizing b with
  | nil => exact ⟨le_refl _, by simp⟩
  | cons y ys ih =>
    obtain ⟨h1, h2⟩ := ih (select_step b y)
    refine ⟨le_trans (select_step_le_left b y) h1, ?_⟩
    intro x hx
    rcases List.mem_cons.mp hx with rfl | hx2
    · exact le_trans (select_step_le_right b x) h1
    · exact h2 x hx2

theorem select_child_score_ge (fm : FloatMath) (config : MuZeroConfig)
    (node : Node) (mm : MinMaxStats) (h : node.children ≠ []) :
    ∀ p ∈ node.children,
      ucb_score fm config node p.2 mm
        ≤ ucb_score fm config node (select_child fm config node mm).2 mm := by
  intro p hp
  unfold select_child
  cases hm : node.children.map
      (fun q => (ucb_score fm config node q.2 mm, q.1, q.2)) with
  | nil => exact absurd (List.map_eq_nil_iff.mp hm) h
  | cons t ts =>
    simp only
    have hsc : ∀ x ∈ t :: ts, x.1 = ucb_score fm config node x.2.2 mm := by
      intro x hx
      rw [← hm] at hx
      rcases List.mem_map.mp hx with ⟨q, _, rfl⟩
      rfl
    have hfold : (ts.foldl select_step t) ∈ t :: ts := by
      rcases foldl_select_step_mem ts t with h2 | h2
      · rw [h2]; exact List.mem_cons_self t ts
      · exact List.mem_cons_of_mem t h2
    have hfp : (ucb_score fm config node p.2 mm, p.1, p.2) ∈ t :: ts := by
      rw [← hm]
      exact List.mem_map_of_mem _ hp
    have hle : (ucb_score fm config node p.2 mm, p.1, p.2).1
        ≤ (ts.foldl select_step t).1 := by
      rcases List.mem_cons.mp hfp with heq | hmem2
      · rw [heq]
        exact (foldl_select_step_fst_le ts t).1
      · exact (foldl_select_step_fst_le ts t).2 _ hmem2
    have hres := hsc _ hfold
    calc ucb_score fm config node p.2 mm
        = (ucb_score fm config node p.2 mm, p.1, p.2).1 := rfl
      _ ≤ (ts.foldl select_step t).1 := hle
      _ = ucb_score fm config node (ts.foldl select_step t).2.2 mm := hres

/-- C3: on every node with a non-empty child mapping, select_child
returns an (action, child) pair that is an entry of the child mapping
and whose ucb score is greater than or equal to the ucb score of every
child in the mapping, so no child with a strictly higher score is ever
returned. -/
theorem select_child_maximizes_ucb (fm : FloatMath) (config : MuZeroConfig)
    (node : Node) (mm : MinMaxStats) (h : node.children ≠ []) :
    select_child fm config node mm ∈ node.children ∧
    ∀ p ∈ node.children,
      ucb_score fm config node p.2 mm
        ≤ ucb_score fm config node (select_child fm config node mm).2 mm :=
  ⟨select_child_mem fm config node mm h, select_child_score_ge fm config node mm h⟩

/-- C3 witness: selection on the concrete expanded root with two
children, constant float math and fresh normalizer. -/
theorem select_child_maximizes_ucb_witness :
    select_child fmZero cfgTest rootTest (MinMaxStats.start none) ∈ rootTest.children ∧
    ∀ p ∈ rootTest.children,
      ucb_score fmZero cfgTest rootTest p.2 (MinMaxStats.start none)
        ≤ ucb_score fmZero cfgTest rootTest
            (select_child fmZero cfgTest rootTest (MinMaxStats.start none)).2
            (MinMaxStats.start none) :=
  select_child_maximizes_ucb fmZero cfgTest rootTest (MinMaxStats.start none)
    (List.cons_ne_nil _ _)

/-! Dict assignment lemmas for the association-list model. -/

theorem upsert_keys {α : Type} (l : List (ℕ × α)) (k : ℕ) (v : α) :
    (upsert l k v).map Prod.fst
      = if k ∈ l.map Prod.fst then l.map Prod.fst
        else l.map Prod.fst ++ [k] := by
  induction l with
  | nil => simp [upsert]
  | cons p ps ih =>
    by_cases hpk : p.1 = k
    · simp [upsert, hpk]
    · have hkp : ¬ k = p.1 := fun h => hpk h.symm
      by_cases hk : k ∈ ps.map Prod.fst <;>
        simp [upsert, hpk, hk, ih, hkp]

theorem mem_upsert {α : Type} {l : List (ℕ × α)} {k : ℕ} {v : α} {p : ℕ × α}
    (h : p ∈ upsert l k v) : p = (k, v) ∨ p ∈ l := by
  induction l with
  | nil => simpa [upsert] using h
  | cons q qs ih =>
    by_cases hq : q.1 = k
    · simp only [upsert, hq, if_true, List.mem_cons] at h
      rcases h with h | h
      · left; exact h
      · right; exact List.mem_cons_of_mem q h
    · simp only [upsert, hq, if_false, List.mem_cons] at h
      rcases h with h | h
      · right; rw [h]; exact List.mem_cons_self q qs
      · rcases ih h with h2 | h2
        · left; exact h2
        · right; exact List.mem_cons_of_mem q h2

theorem upsert_not_mem {α : Type} (l : List (ℕ × α)) (k : ℕ) (v : α)
    (h : k ∉ l.map Prod.fst) : upsert l k v = l ++ [(k, v)] := by
  induction l with
  | nil => simp [upsert]
  | cons q qs ih =>
    simp only [List.map_cons, List.mem_cons] at h
    push_neg at h
    have hq : ¬ q.1 = k := fun h2 => h.1 h2.symm
    simp [upsert, hq, ih h.2]

theorem fold_upsert_keys_mem {α : Type} (g : ℕ → α) (actions : List ℕ) :
    ∀ (acc : List (ℕ × α)) (a : ℕ),
      a ∈ (actions.foldl (fun m b => upsert m b (g b)) acc).map Prod.fst
        ↔ a ∈ acc.map Prod.fst ∨ a ∈ actions := by
  induction actions with
  | nil => intro acc a; simp
  | cons x xs ih =>
    intro acc a
    simp only [List.foldl_cons]
    rw [ih]
    rw [upsert_keys]
    by_cases hx : x ∈ acc.map Prod.fst
    · simp only [hx, if_true, List.mem_cons]
      constructor
      · rintro (h | h)
        · left; exact h
        · right; right; exact h
      · rintro (h | h | h)
        · left; exact h
        · left; rw [h]; exact hx
        · right; exact h
    · simp only [hx, if_false, List.mem_append, List.mem_singleton,
        List.mem_cons]
      tauto

theorem fold_upsert_keys_nodup {α : Type} (g : ℕ → α) (actions : List ℕ) :
    ∀ acc : List (ℕ × α), (acc.map Prod.fst).Nodup →
      ((actions.foldl (fun m b => upsert m b (g b)) acc).map Prod.fst).Nodup := by
  induction actions with
  | nil => intro acc h; simpa
  | cons x xs ih =>
    intro acc h
    simp only [List.foldl_cons]
    apply ih
    rw [upsert_keys]
    by_cases hx : x ∈ acc.map Prod.fst
    · simpa [hx]
    · simp [hx, List.nodup_append, h]

theorem fold_upsert_values {α : Type} (g : ℕ → α) (actions : List ℕ) :
    ∀ acc : List (ℕ × α), (∀ p ∈ acc, p.2 = g p.1) →
      ∀ p ∈ actions.foldl (fun m b => upsert m b (g b)) acc, p.2 = g p.1 := by
  induction actions with
  | nil => intro acc h; simp only [List.foldl_nil]; exact h
  | cons x xs ih =>
    intro acc h
    simp only [List.foldl_cons]
    apply ih
    intro p hp
    rcases mem_upsert hp with rfl | hp2
    · rfl
    · exact h p hp2

theorem fold_upsert_fresh {α β : Type} (g : ℕ × β → α) (ps : List (ℕ × β)) :
    ∀ acc : List (ℕ × α), (ps.map Prod.fst).Nodup →
      (∀ q ∈ ps, q.1 ∉ acc.map Prod.fst) →
      ps.foldl (fun m q => upsert m q.1 (g q)) acc
        = acc ++ ps.map (fun q => (q.1, g q)) := by
  induction ps with
  | nil => intro acc _ _; simp
  | cons x xs ih =>
    intro acc hnd hfr
    simp only [List.foldl_cons, List.map_cons]
    rw [upsert_not_mem acc x.1 (g x) (hfr x (List.mem_cons_self x xs))]
    simp only [List.map_cons, List.nodup_cons] at hnd
    rw [ih (acc ++ [(x.1, g x)]) hnd.2 ?_]
    · simp
    · intro q hq
      simp only [List.map_append, List.mem_append, List.map_cons,
        List.map_nil, List.mem_singleton]
      push_neg
      refine ⟨hfr q (List.mem_cons_of_mem x hq), ?_⟩
      intro h2
      exact hnd.1 (h2 ▸ List.mem_map_of_mem Prod.fst hq)

theorem sum_map_div_snd {α : Type} (l : List (α × ℚ)) (S : ℚ) :
    (l.map (fun q => q.2 / S)).sum = (l.map (fun q => q.2)).sum / S := by
  induction l with
  | nil => simp
  | cons x xs ih => simp [ih, add_div]

/-! Claim C4. Expansion priors. -/

/-- The zero evaluator output used in concrete scenarios. -/
def outZero : NetworkOutput := ⟨0, 0, fun _ => 0, []⟩

theorem expand_node_pre_children :
    (expand_node fmZero nodePre 0 [0] outZero).children
      = [(2, Node.start (1/2)), (0, Node.start 1)] := by
  norm_num [expand_node, policy_of, upsert, nodePre, outZero, fmZero,
    Node.children, List.foldl_cons]

/-- C4 counterexample: the claim quantifies over every node, but on a
node that already holds a child under action 2, expanding with the legal
action list consisting of action 0 alone keeps the stale child: the
resulting mapping has the two keys 2 and 0 instead of one child per
distinct legal action, and the priors sum to 3/2 rather than 1. -/
theorem expand_node_prior_sum_counterexample :
    (expand_node fmZero nodePre 0 [0] outZero).children.map Prod.fst = [2, 0] ∧
    ((expand_node fmZero nodePre 0 [0] outZero).children.map
        (fun p => p.2.prior)).sum = 3/2 := by
  rw [expand_node_pre_children]
  constructor
  · rfl
  · norm_num [Node.start, Node.prior]

theorem expand_node_children_fresh (fm : FloatMath) (node : Node) (tp : ℤ)
    (actions : List ℕ) (out : NetworkOutput) (hfresh : node.children = []) :
    (expand_node fm node tp actions out).children
      = (policy_of fm out actions).map
          (fun q => (q.1, Node.start
            (q.2 / ((policy_of fm out actions).map (fun p => p.2)).sum))) := by
  show (policy_of fm out actions).foldl
      (fun m p => upsert m p.1 (Node.start
        (p.2 / ((policy_of fm out actions).map (fun p => p.2)).sum)))
      node.children = _
  rw [hfresh]
  rw [fold_upsert_fresh
      (fun q => Node.start
        (q.2 / ((policy_of fm out actions).map (fun p => p.2)).sum))
      (policy_of fm out actions) []
      (fold_upsert_keys_nodup _ actions [] (by simp)) (by simp)]
  simp

theorem policy_of_keys_mem (fm : FloatMath) (out : NetworkOutput)
    (actions : List ℕ) (a : ℕ) :
    a ∈ (policy_of fm out actions).map Prod.fst ↔ a ∈ actions := by
  unfold policy_of
  rw [fold_upsert_keys_mem (fun b => fm.exp (out.policy_logits b)) actions [] a]
  simp

theorem policy_of_values (fm : FloatMath) (out : NetworkOutput)
    (actions : List ℕ) :
    ∀ p ∈ policy_of fm out actions, p.2 = fm.exp (out.policy_logits p.1) := by
  unfold policy_of
  exact fold_upsert_values (fun b => fm.exp (out.policy_logits b)) actions []
    (by simp)

/-- C4 amended: on a node whose child mapping is empty, with a non-empty
legal action list and a positive exponential, expand_node produces one
child per distinct legal action passed in (the keys are duplicate-free
and are exactly the distinct legal actions), each child prior is the
exponential of its policy logit divided by the sum of the exponentials
over the distinct legal actions (the renormalized softmax restricted to
the legal actions), and the priors of the children sum to 1. -/
theorem expand_node_fresh_softmax (fm : FloatMath) (node : Node) (tp : ℤ)
    (actions : List ℕ) (out : NetworkOutput)
    (hfresh : node.children = []) (hne : actions ≠ [])
    (hexp : ∀ x : ℚ, 0 < fm.exp x) :
    ((expand_node fm node tp actions out).children.map Prod.fst).Nodup ∧
    (∀ a : ℕ, a ∈ (expand_node fm node tp actions out).children.map Prod.fst
        ↔ a ∈ actions) ∧
    (∀ p ∈ (expand_node fm node tp actions out).children,
      p.2.prior = fm.exp (out.policy_logits p.1)
        / ((policy_of fm out actions).map (fun q => q.2)).sum) ∧
    ((expand_node fm node tp actions out).children.map
        (fun p => p.2.prior)).sum = 1 := by
  have hch := expand_node_children_fresh fm node tp actions out hfresh
  have hkeys : (expand_node fm node tp actions out).children.map Prod.fst
      = (policy_of fm out actions).map Prod.fst := by
    rw [hch, List.map_map]
    rfl
  have hpolne : policy_of fm out actions ≠ [] := by
    intro hpol
    cases hac : actions with
    | nil => exact hne hac
    | cons a as =>
      have hmem : a ∈ (policy_of fm out actions).map Prod.fst := by
        rw [policy_of_keys_mem, hac]
        exact List.mem_cons_self a as
      rw [hpol] at hmem
      simp at hmem
  have hSpos : 0 < ((policy_of fm out actions).map (fun q => q.2)).sum := by
    apply List.sum_pos
    · intro x hx
      rcases List.mem_map.mp hx with ⟨q, hq, rfl⟩
      rw [policy_of_values fm out actions q hq]
      exact hexp _
    · simpa using hpolne
  refine ⟨?_, ?_, ?_, ?_⟩
  · rw [hkeys]
    exact fold_upsert_keys_nodup _ actions [] (by simp)
  · intro a
    rw [hkeys]
    exact policy_of_keys_mem fm out actions a
  · intro p hp
    rw [hch] at hp
    rcases List.mem_map.mp hp with ⟨q, hq, rfl⟩
    have : (Node.start
        (q.2 / ((policy_of fm out actions).map (fun p => p.2)).sum)).prior
        = q.2 / ((policy_of fm out actions).map (fun p => p.2)).sum := rfl
    rw [this, policy_of_values fm out actions q hq]
  · rw [hch, List.map_map]
    have hfn : ((fun p => p.2.prior) ∘ fun (q : ℕ × ℚ) =>
        (q.1, Node.start
          (q.2 / ((policy_of fm out actions).map (fun p => p.2)).sum)))
        = fun (q : ℕ × ℚ) =>
            q.2 / ((policy_of fm out actions).map (fun p => p.2)).sum := by
      funext q
      rfl
    rw [hfn, sum_map_div_snd]
    exact div_self (ne_of_gt hSpos)

/-- C4 witness: the amended theorem on a fresh node with the two legal
actions 0 and 1 under the constant evaluator output and exp constantly
1. -/
theorem expand_node_fresh_softmax_witness :
    ((expand_node fmZero (Node.start 1) 0 [0, 1] outZero).children.map
        Prod.fst).Nodup ∧
    (∀ a : ℕ, a ∈ (expand_node fmZero (Node.start 1) 0 [0, 1] outZero).children.map
        Prod.fst ↔ a ∈ [0, 1]) ∧
    (∀ p ∈ (expand_node fmZero (Node.start 1) 0 [0, 1] outZero).children,
      p.2.prior = fmZero.exp (outZero.policy_logits p.1)
        / ((policy_of fmZero outZero [0, 1]).map (fun q => q.2)).sum) ∧
    ((expand_node fmZero (Node.start 1) 0 [0, 1] outZero).children.map
        (fun p => p.2.prior)).sum = 1 :=
  expand_node_fresh_softmax fmZero (Node.start 1) 0 [0, 1] outZero rfl
    (List.cons_ne_nil _ _) (fun x => by norm_num [fmZero])

/-! Claim C1. The simulation budget and the root visit count. -/

theorem simulate_visit_and_children (fm : FloatMath) (config : MuZeroConfig)
    (network : Network) (hist : ActionHistory) (ph : Option (List ℚ)) (la : ℕ)
    (mm : MinMaxStats) (node : Node) (h : node.expanded = true) :
    (simulate fm config network hist ph la mm node).1.visit_count
        = node.visit_count + 1 ∧
    (simulate fm config network hist ph la mm node).1.children.length
        = node.children.length := by
  rw [simulate, dif_pos h]
  constructor
  · simp [backprop_step, Node.visit_count]
  · simp [backprop_step, Node.children]

theorem mcts_fold_visits (fm : FloatMath) (config : MuZeroConfig)
    (network : Network) (hist : ActionHistory) (l : List ℕ) :
    ∀ acc : Node × MinMaxStats, acc.1.expanded = true →
      ((l.foldl (fun a _ => mcts_step fm config network hist a) acc).1.visit_count
          = acc.1.visit_count + l.length ∧
       (l.foldl (fun a _ => mcts_step fm config network hist a) acc).1.children.length
          = acc.1.children.length) := by
  induction l with
  | nil => intro acc _; simp
  | cons x xs ih =>
    intro acc h
    simp only [List.foldl_cons]
    have hstep := simulate_visit_and_children fm config network hist.clone none
        hist.clone.last_action acc.2 acc.1 h
    have hexp2 : (mcts_step fm config network hist acc).1.expanded = true := by
      unfold Node.expanded at h ⊢
      rw [show (mcts_step fm config network hist acc).1.children.length
          = acc.1.children.length from hstep.2]
      exact h
    obtain ⟨i1, i2⟩ := ih (mcts_step fm config network hist acc) hexp2
    refine ⟨?_, ?_⟩
    · rw [i1, show (mcts_step fm config network hist acc).1.visit_count
          = acc.1.visit_count + 1 from hstep.1]
      simp only [List.length_cons]
      omega
    · rw [i2]
      exact hstep.2

/-- C1: for every already expanded root, every action history, every
evaluator and every configuration, run_mcts performs its
num_simulations simulations and the returned tree root has its
visit_count increased by exactly num_simulations. -/
theorem run_mcts_adds_num_simulations_visits (fm : FloatMath)
    (config : MuZeroConfig) (root : Node) (action_history : ActionHistory)
    (network : Network) (h : root.expanded = true) :
    (run_mcts fm config root action_history network).1.visit_count
      = root.visit_count + config.num_simulations := by
  unfold run_mcts
  have := (mcts_fold_visits fm config network action_history
      (List.range config.num_simulations)
      (root, MinMaxStats.start config.known_bounds) h).1
  simpa using this

/-- C1 witness: one simulation on the concrete expanded root increases
its visit count from 0 to 1. -/
theorem run_mcts_adds_num_simulations_visits_witness :
    (run_mcts fmZero cfgTest rootTest histTest netTest).1.visit_count
      = rootTest.visit_count + cfgTest.num_simulations :=
  run_mcts_adds_num_simulations_visits fmZero cfgTest rootTest histTest netTest
    (by decide)

/-! Claim C5. Root exploration noise. -/

theorem assoc_eq_of_nodup_keys {α : Type} {l : List (ℕ × α)}
    (hnd : (l.map Prod.fst).Nodup) {p q : ℕ × α}
    (hp : p ∈ l) (hq : q ∈ l) (hk : p.1 = q.1) : p = q := by
  induction l with
  | nil => cases hp
  | cons x xs ih =>
    simp only [List.map_cons, List.nodup_cons] at hnd
    rcases List.mem_cons.mp hp with rfl | hp2
    · rcases List.mem_cons.mp hq with rfl | hq2
      · rfl
      · exfalso
        apply hnd.1
        rw [hk]
        exact List.mem_map_of_mem Prod.fst hq2
    · rcases List.mem_cons.mp hq with rfl | hq2
      · exfalso
        apply hnd.1
        rw [← hk]
        exact List.mem_map_of_mem Prod.fst hp2
      · exact ih hnd.2 hp2 hq2

theorem simulate_prior (fm : FloatMath) (config : MuZeroConfig)
    (network : Network) (hist : ActionHistory) (ph : Option (List ℚ)) (la : ℕ)
    (mm : MinMaxStats) (node : Node) :
    (simulate fm config network hist ph la mm node).1.prior = node.prior := by
  by_cases h : node.expanded = true
  · rw [simulate, dif_pos h]
    simp [backprop_step, Node.prior]
  · rw [simulate, dif_neg h]
    simp [backprop_step, expand_node, Node.prior]

theorem simulate_children_prior_map (fm : FloatMath) (config : MuZeroConfig)
    (network : Network) (hist : ActionHistory) (ph : Option (List ℚ)) (la : ℕ)
    (mm : MinMaxStats) (node : Node) (h : node.expanded = true)
    (hnd : (node.children.map Prod.fst).Nodup) :
    (simulate fm config network hist ph la mm node).1.children.map
        (fun p => (p.1, p.2.prior))
      = node.children.map (fun p => (p.1, p.2.prior)) := by
  have hne : node.children ≠ [] := by
    intro h2
    unfold Node.expanded at h
    rw [h2] at h
    simp at h
  have hmem := select_child_mem fm config node mm hne
  rw [simulate, dif_pos h]
  simp only [backprop_step, Node.children]
  rw [List.map_map]
  apply List.map_congr_left
  intro p hp
  simp only [Function.comp]
  by_cases hpa : p.1 = (select_child fm config node mm).1
  · have hp2 : p = select_child fm config node mm :=
      assoc_eq_of_nodup_keys hnd hp hmem hpa
    rw [hp2]
    simp [simulate_prior]
  · simp [hpa]

theorem keys_of_prior_map {l1 l2 : List (ℕ × Node)}
    (h : l1.map (fun p => (p.1, p.2.prior)) = l2.map (fun p => (p.1, p.2.prior))) :
    l1.map Prod.fst = l2.map Prod.fst := by
  have h2 := congrArg (List.map Prod.fst) h
  simpa [List.map_map, Function.comp] using h2

theorem mcts_fold_priors (fm : FloatMath) (config : MuZeroConfig)
    (network : Network) (hist : ActionHistory) (l : List ℕ) :
    ∀ acc : Node × MinMaxStats, acc.1.expanded = true →
      (acc.1.children.map Prod.fst).Nodup →
      ((l.foldl (fun a _ => mcts_step fm config network hist a) acc).1.prior
          = acc.1.prior ∧
       (l.foldl (fun a _ => mcts_step fm config network hist a) acc).1.children.map
          (fun p => (p.1, p.2.prior))
        = acc.1.children.map (fun p => (p.1, p.2.prior))) := by
  induction l with
  | nil => intro acc _ _; simp
  | cons x xs ih =>
    intro acc h hnd
    simp only [List.foldl_cons]
    have hpr : (mcts_step fm config network hist acc).1.prior = acc.1.prior :=
      simulate_prior fm config network hist.clone none hist.clone.last_action
        acc.2 acc.1
    have hmap : (mcts_step fm config network hist acc).1.children.map
          (fun p => (p.1, p.2.prior))
        = acc.1.children.map (fun p => (p.1, p.2.prior)) :=
      simulate_children_prior_map fm config network hist.clone none
        hist.clone.last_action acc.2 acc.1 h hnd
    have hlen : (mcts_step fm config network hist acc).1.children.length
        = acc.1.children.length := by
      have h3 := congrArg List.length hmap
      simpa using h3
    have hexp2 : (mcts_step fm config network hist acc).1.expanded = true := by
      unfold Node.expanded at h ⊢
      rw [hlen]
      exact h
    have hnd2 : ((mcts_step fm config network hist acc).1.children.map
        Prod.fst).Nodup := by
      rw [keys_of_prior_map hmap]
      exact hnd
    obtain ⟨i1, i2⟩ := ih (mcts_step fm config network hist acc) hexp2 hnd2
    exact ⟨by rw [i1, hpr], by rw [i2, hmap]⟩

theorem blendChildren_spec (frac : ℚ) (cs : List (ℕ × Node)) :
    ∀ ns : List ℚ, ns.length = cs.length →
      ((blendChildren frac cs ns).map (fun p => p.2.prior)
        = (cs.zip ns).map (fun q => q.1.2.prior * (1 - frac) + q.2 * frac) ∧
       (blendChildren frac cs ns).map Prod.fst = cs.map Prod.fst) := by
  induction cs with
  | nil =>
    intro ns h
    cases ns with
    | nil => simp [blendChildren]
    | cons n ns2 => simp at h
  | cons c cs2 ih =>
    intro ns h
    cases ns with
    | nil => simp at h
    | cons n ns2 =>
      simp only [List.length_cons] at h
      have h2 : ns2.length = cs2.length := by omega
      obtain ⟨i1, i2⟩ := ih ns2 h2
      have hsp : ∀ (nd : Node) (p : ℚ), (setPrior nd p).prior = p :=
        fun _ _ => rfl
      constructor
      · simp [blendChildren, List.zip_cons_cons, i1, hsp]
      · simp [blendChildren, List.zip_cons_cons, i2]

theorem blend_sum (frac : ℚ) (cs : List (ℕ × Node)) :
    ∀ ns : List ℚ, ns.length = cs.length →
      ((cs.zip ns).map (fun q => q.1.2.prior * (1 - frac) + q.2 * frac)).sum
        = (cs.map (fun p => p.2.prior)).sum * (1 - frac) + ns.sum * frac := by
  induction cs with
  | nil =>
    intro ns h
    cases ns with
    | nil => simp
    | cons n ns2 => simp at h
  | cons c cs2 ih =>
    intro ns h
    cases ns with
    | nil => simp at h
    | cons n ns2 =>
      simp only [List.length_cons] at h
      have h2 : ns2.length = cs2.length := by omega
      simp only [List.zip_cons_cons, List.map_cons, List.sum_cons, ih ns2 h2]
      ring

/-- C5: with a noise vector of the right length summing to 1 over the
children of an expanded root whose priors sum to 1,
add_exploration_noise blends every child prior with its noise entry
using the exploration fraction, keeps the action keys, and the blended
priors still sum to 1; and running the search itself never touches
priors of existing nodes: run_mcts preserves the prior of the root and
the (action, prior) table of the root children, so the one-time blend
applied between expansion and search is never reapplied during
simulations. -/
theorem exploration_noise_blend_and_once (config : MuZeroConfig)
    (noise : List ℚ) (node : Node) (hlen : noise.length = node.children.length)
    (hsum : (node.children.map (fun p => p.2.prior)).sum = 1)
    (hnoise : noise.sum = 1)
    (fm : FloatMath) (network : Network) (hist : ActionHistory) (root : Node)
    (hroot : root.expanded = true)
    (hnd : (root.children.map Prod.fst).Nodup) :
    ((add_exploration_noise config noise node).children.map (fun p => p.2.prior)
        = (node.children.zip noise).map
            (fun q => q.1.2.prior * (1 - config.root_exploration_fraction)
              + q.2 * config.root_exploration_fraction)) ∧
    ((add_exploration_noise config noise node).children.map Prod.fst
        = node.children.map Prod.fst) ∧
    (((add_exploration_noise config noise node).children.map
        (fun p => p.2.prior)).sum = 1) ∧
    ((run_mcts fm config root hist network).1.prior = root.prior) ∧
    ((run_mcts fm config root hist network).1.children.map
        (fun p => (p.1, p.2.prior))
      = root.children.map (fun p => (p.1, p.2.prior))) := by
  obtain ⟨b1, b2⟩ :=
    blendChildren_spec config.root_exploration_fraction node.children noise hlen
  have hadd : (add_exploration_noise config noise node).children
      = blendChildren config.root_exploration_fraction node.children noise := rfl
  refine ⟨?_, ?_, ?_, ?_, ?_⟩
  · rw [hadd]
    exact b1
  · rw [hadd]
    exact b2
  · rw [hadd, b1, blend_sum _ _ noise hlen, hsum, hnoise]
    ring
  · unfold run_mcts
    exact (mcts_fold_priors fm config network hist
        (List.range config.num_simulations)
        (root, MinMaxStats.start config.known_bounds) hroot hnd).1
  · unfold run_mcts
    exact (mcts_fold_priors fm config network hist
        (List.range config.num_simulations)
        (root, MinMaxStats.start config.known_bounds) hroot hnd).2

/-- C5 witness: the blend with noise 1/2, 1/2 on the concrete root whose
child priors are 1/2 and 1/2, and one concrete search preserving the
root prior table. -/
theorem exploration_noise_blend_and_once_witness :
    ((add_exploration_noise cfgTest [1/2, 1/2] rootTest).children.map
        (fun p => p.2.prior)
      = (rootTest.children.zip [1/2, 1/2]).map
          (fun q => q.1.2.prior * (1 - cfgTest.root_exploration_fraction)
            + q.2 * cfgTest.root_exploration_fraction)) ∧
    ((add_exploration_noise cfgTest [1/2, 1/2] rootTest).children.map Prod.fst
        = rootTest.children.map Prod.fst) ∧
    (((add_exploration_noise cfgTest [1/2, 1/2] rootTest).children.map
        (fun p => p.2.prior)).sum = 1) ∧
    ((run_mcts fmZero cfgTest rootTest histTest netTest).1.prior
        = rootTest.prior) ∧
    ((run_mcts fmZero cfgTest rootTest histTest netTest).1.children.map
        (fun p => (p.1, p.2.prior))
      = rootTest.children.map (fun p => (p.1, p.2.prior))) :=
  exploration_noise_blend_and_once cfgTest [1/2, 1/2] rootTest (by decide)
    (by norm_num [rootTest, Node.children, Node.start, Node.prior])
    (by norm_num) fmZero netTest histTest rootTest (by decide) (by decide)

end PyZero
